import Mathlib

/-!
Verification of the string-feature core of the shogun repository
(`src/shogun/features/StringFeatures.cpp`), shallowly embedded in Lean.

Machine integers of the element type `ST` (width `w` bits, unsigned) are
modelled as `Nat` together with an explicit `% 2 ^ w` wherever the C++
left shift may wrap.  The external `Alphabet` collaborator is modelled by
parameters: `remap : Nat → Nat` for `remap_to_bin`, `remapChar` for
`remap_to_char`, and `nbits`/`bits` for `get_num_bits()`.
-/

namespace StringFeatures

/-- `ST` left shift with width-`w` wraparound (C++ `value <<= k` on an
unsigned `w`-bit type). -/
def stShl (w x k : Nat) : Nat := (x <<< k) % 2 ^ w

/-- The mask-building loop `for i<n: mask=(mask<<1)|1` executed on an
`ST` of width `w`. -/
def lowMaskLoop (w : Nat) : Nat → Nat
  | 0 => 0
  | n + 1 => stShl w (lowMaskLoop w n) 1 ||| 1

/-- `CStringFeatures::embed_word`: `for i<len: value<<=nbits; value|=seq[i]`. -/
def embed_word (w nbits : Nat) (seq : List Nat) : Nat :=
  seq.foldl (fun value s => stShl w value nbits ||| s) 0

/-- `CStringFeatures::unembed_word`: repeatedly take the low `nbits` bits,
cast them to `uint8_t` (the `% 256`) and remap to a display character,
then shift right; the extraction produced at step `i` is written at output
index `len-i-1`, i.e. back-to-front. -/
def unembed_word (w nbits : Nat) (remapChar : Nat → Nat) : Nat → Nat → List Nat
  | _, 0 => []
  | word, len + 1 =>
    unembed_word w nbits remapChar (word >>> nbits) len
      ++ [remapChar ((word &&& lowMaskLoop w nbits) % 256)]

theorem lowMaskLoop_eq (w : Nat) : ∀ n, n ≤ w → lowMaskLoop w n = 2 ^ n - 1 := by
  intro n
  induction n with
  | zero => intro _; rfl
  | succ m ih =>
    intro h
    have hm : m ≤ w := Nat.le_of_succ_le h
    have hlt : (2 ^ m - 1) * 2 < 2 ^ w := by
      have h1 : 2 ^ (m + 1) ≤ 2 ^ w := Nat.pow_le_pow_right (by omega) h
      have h2 : 0 < 2 ^ m := Nat.pos_pow_of_pos m (by omega)
      have : (2 ^ m - 1) * 2 = 2 ^ (m + 1) - 2 := by
        rw [Nat.pow_succ]; omega
      omega
    have hor : 2 ^ 1 * (2 ^ m - 1) + 1 = 2 ^ 1 * (2 ^ m - 1) ||| 1 :=
      Nat.mul_add_lt_is_or (by omega) _
    have h2 : 0 < 2 ^ m := Nat.pos_pow_of_pos m (by omega)
    calc lowMaskLoop w (m + 1)
        = stShl w (lowMaskLoop w m) 1 ||| 1 := rfl
      _ = ((2 ^ m - 1) <<< 1 % 2 ^ w) ||| 1 := by rw [ih hm]; rfl
      _ = ((2 ^ m - 1) * 2) ||| 1 := by
            rw [Nat.shiftLeft_eq, pow_one, Nat.mod_eq_of_lt hlt]
      _ = 2 ^ 1 * (2 ^ m - 1) ||| 1 := by ring_nf
      _ = 2 ^ 1 * (2 ^ m - 1) + 1 := hor.symm
      _ = 2 ^ (m + 1) - 1 := by rw [Nat.pow_succ]; ring_nf; omega

theorem embed_word_append (w nbits : Nat) (xs : List Nat) (x : Nat) :
    embed_word w nbits (xs ++ [x]) = stShl w (embed_word w nbits xs) nbits ||| x := by
  unfold embed_word
  rw [List.foldl_append]
  rfl

theorem embed_word_lt (w nbits : Nat) (xs : List Nat)
    (hsym : ∀ x ∈ xs, x < 2 ^ nbits) (hw : xs.length * nbits ≤ w) :
    embed_word w nbits xs < 2 ^ (xs.length * nbits) := by
  induction xs using List.reverseRecOn with
  | nil =>
    simp [embed_word]
  | append_singleton xs x ih =>
    have hx : x < 2 ^ nbits := hsym x (by simp)
    have hxs : ∀ y ∈ xs, y < 2 ^ nbits := fun y hy => hsym y (by simp [hy])
    have hlen : (xs ++ [x]).length = xs.length + 1 := by simp
    have hw' : xs.length * nbits ≤ w := by
      rw [hlen] at hw; nlinarith [Nat.zero_le nbits]
    have hbound := ih hxs hw'
    rw [embed_word_append, hlen]
    have hmul : embed_word w nbits xs * 2 ^ nbits < 2 ^ ((xs.length + 1) * nbits) := by
      have : 2 ^ (xs.length * nbits) * 2 ^ nbits = 2 ^ ((xs.length + 1) * nbits) := by
        rw [← pow_add]; ring_nf
      calc embed_word w nbits xs * 2 ^ nbits
          ≤ (2 ^ (xs.length * nbits) - 1) * 2 ^ nbits := by
            have := Nat.le_sub_one_of_lt hbound
            exact Nat.mul_le_mul_right _ this
        _ < 2 ^ (xs.length * nbits) * 2 ^ nbits := by
            have h2 : 0 < 2 ^ nbits := Nat.pos_pow_of_pos nbits (by omega)
            have h3 : 0 < 2 ^ (xs.length * nbits) := Nat.pos_pow_of_pos _ (by omega)
            exact (Nat.mul_lt_mul_right h2).mpr (by omega)
        _ = 2 ^ ((xs.length + 1) * nbits) := this
    have hshl : stShl w (embed_word w nbits xs) nbits = embed_word w nbits xs * 2 ^ nbits := by
      unfold stShl
      rw [Nat.shiftLeft_eq]
      have hle : 2 ^ ((xs.length + 1) * nbits) ≤ 2 ^ w := Nat.pow_le_pow_right (by omega) (by rw [hlen] at hw; exact hw)
      exact Nat.mod_eq_of_lt (lt_of_lt_of_le hmul hle)
    rw [hshl]
    have hor : 2 ^ nbits * (embed_word w nbits xs) + x = 2 ^ nbits * (embed_word w nbits xs) ||| x :=
      Nat.mul_add_lt_is_or hx _
    rw [Nat.mul_comm (embed_word w nbits xs) (2 ^ nbits), ← hor]
    have : 2 ^ nbits * embed_word w nbits xs + x
        ≤ 2 ^ nbits * (2 ^ (xs.length * nbits) - 1) + x := by
      have := Nat.le_sub_one_of_lt hbound
      exact Nat.add_le_add_right (Nat.mul_le_mul_left _ this) x
    have hpow : 2 ^ nbits * 2 ^ (xs.length * nbits) = 2 ^ ((xs.length + 1) * nbits) := by
      rw [← pow_add]; ring_nf
    have h3 : 0 < 2 ^ (xs.length * nbits) := Nat.pos_pow_of_pos _ (by omega)
    nlinarith

/-- C2: k-mer packing round trip: for every sequence `S` of `len` symbol
codes each below `2 ^ nbits`, with `len * nbits` at most the bit width `w`
of the code type, `unembed_word (embed_word S len) out len` writes
`out[i] = remap_to_char (S[i])` for every `0 ≤ i < len`; symbols are
recovered in original order because `unembed_word` writes back-to-front.
(`nbits ≤ 8` reflects the Alphabet collaborator: `remap_to_bin` produces
`uint8_t` codes against a 256-entry histogram.) -/
theorem unembed_embed_roundtrip (w nbits : Nat) (remapChar : Nat → Nat) (seq : List Nat)
    (h8 : nbits ≤ 8)
    (hsym : ∀ x ∈ seq, x < 2 ^ nbits) (hw : seq.length * nbits ≤ w) :
    unembed_word w nbits remapChar (embed_word w nbits seq) seq.length
      = seq.map remapChar := by
  induction seq using List.reverseRecOn with
  | nil =>
    simp [unembed_word, embed_word]
  | append_singleton xs x ih =>
    have hx : x < 2 ^ nbits := hsym x (by simp)
    have hxs : ∀ y ∈ xs, y < 2 ^ nbits := fun y hy => hsym y (by simp [hy])
    have hlen : (xs ++ [x]).length = xs.length + 1 := by simp
    rw [hlen] at hw ⊢
    have hw' : xs.length * nbits ≤ w := by nlinarith [Nat.zero_le nbits]
    have hnb : nbits ≤ w := by nlinarith [Nat.zero_le xs.length]
    have hbound := embed_word_lt w nbits xs hxs hw'
    -- the packed word is `embed xs * 2^nbits + x`
    have hmul_lt : embed_word w nbits xs * 2 ^ nbits < 2 ^ w := by
      have h1 : 2 ^ (xs.length * nbits) * 2 ^ nbits = 2 ^ ((xs.length + 1) * nbits) := by
        rw [← pow_add]; ring_nf
      have h2 : 2 ^ ((xs.length + 1) * nbits) ≤ 2 ^ w := Nat.pow_le_pow_right (by omega) hw
      have h3 : 0 < 2 ^ nbits := Nat.pos_pow_of_pos nbits (by omega)
      calc embed_word w nbits xs * 2 ^ nbits
          < 2 ^ (xs.length * nbits) * 2 ^ nbits := (Nat.mul_lt_mul_right h3).mpr hbound
        _ = 2 ^ ((xs.length + 1) * nbits) := h1
        _ ≤ 2 ^ w := h2
    have hword : embed_word w nbits (xs ++ [x])
        = embed_word w nbits xs * 2 ^ nbits + x := by
      rw [embed_word_append]
      unfold stShl
      rw [Nat.shiftLeft_eq, Nat.mod_eq_of_lt hmul_lt,
        Nat.mul_comm (embed_word w nbits xs) (2 ^ nbits)]
      rw [← Nat.mul_add_lt_is_or hx, Nat.mul_comm]
    rw [hword]
    show unembed_word w nbits remapChar (embed_word w nbits xs * 2 ^ nbits + x) (xs.length + 1)
        = (xs ++ [x]).map remapChar
    unfold unembed_word
    have hmask : (embed_word w nbits xs * 2 ^ nbits + x) &&& lowMaskLoop w nbits = x := by
      rw [lowMaskLoop_eq w nbits hnb, Nat.and_pow_two_sub_one_eq_mod,
        Nat.mul_comm (embed_word w nbits xs) (2 ^ nbits), Nat.mul_add_mod,
        Nat.mod_eq_of_lt hx]
    have hx256 : x % 256 = x := by
      have h1 : (2 : Nat) ^ nbits ≤ 2 ^ 8 := Nat.pow_le_pow_right (by omega) h8
      exact Nat.mod_eq_of_lt (lt_of_lt_of_le hx (by omega))
    have hshr : (embed_word w nbits xs * 2 ^ nbits + x) >>> nbits = embed_word w nbits xs := by
      have hpos : 0 < 2 ^ nbits := Nat.pos_pow_of_pos nbits (by omega)
      rw [Nat.shiftRight_eq_div_pow, Nat.mul_comm (embed_word w nbits xs) (2 ^ nbits),
        Nat.mul_add_div hpos, Nat.div_eq_of_lt hx, Nat.add_zero]
    rw [hmask, hx256, hshr, ih hxs hw']
    simp

theorem unembed_embed_roundtrip_witness :
    (∀ x ∈ ([1, 2, 3] : List Nat), x < 2 ^ 2) ∧ ([1, 2, 3] : List Nat).length * 2 ≤ 8 ∧
    unembed_word 8 2 (fun c => c + 65) (embed_word 8 2 [1, 2, 3]) ([1, 2, 3] : List Nat).length
      = [1, 2, 3].map (fun c => c + 65) :=
  ⟨by decide, by decide,
   unembed_embed_roundtrip 8 2 (fun c => c + 65) [1, 2, 3] (by decide) (by decide) (by decide)⟩

/-- One step of the rolling re-embedding
`str[idx+1] = ((str[idx]<<max_val) | str[j]) & mask` from `embed_features`. -/
def rollStep (w bits mask prev x : Nat) : Nat := (stShl w prev bits ||| x) &&& mask

/-- The `j = p_order .. len-1` loop of `embed_features`, producing the codes
at output positions `1 .. len-p_order` from the already-remapped symbols. -/
def rollEmbed (w bits mask : Nat) : Nat → List Nat → List Nat
  | _, [] => []
  | prev, x :: xs => rollStep w bits mask prev x :: rollEmbed w bits mask (rollStep w bits mask prev x) xs

/-- `CStringFeatures::embed_features` restricted to one stored sequence:
fails (`error`) when the sequence is shorter than the order; otherwise the
first output is `embed_word` of the remapped first `p_order` symbols and the
rest follow by the rolling step.  This is the functional reading of the
in-place loop: position `idx+1` is written before position `j ≥ idx+1` is
read, and each `str[j]` is remapped exactly once before being read. -/
def embedSeq (w bits k : Nat) (remap : Nat → Nat) (s : List Nat) : Option (List Nat) :=
  if s.length < k then none
  else
    some (embed_word w bits ((s.take k).map remap)
      :: rollEmbed w bits (lowMaskLoop w (k * bits))
           (embed_word w bits ((s.take k).map remap)) ((s.drop k).map remap))

/-- `CStringFeatures::embed_features` over the whole store.  The code's
guards (no active subset, non-empty alphabet histogram) are preconditions of
the claims; the per-sequence loop aborts at the first sequence shorter than
the order. -/
def embed_features (w bits k : Nat) (remap : Nat → Nat) : List (List Nat) → Option (List (List Nat))
  | [] => some []
  | s :: ss =>
    match embedSeq w bits k remap s, embed_features w bits k remap ss with
    | some o, some os => some (o :: os)
    | _, _ => none

theorem rollEmbed_length (w bits mask : Nat) (l : List Nat) :
    ∀ prev, (rollEmbed w bits mask prev l).length = l.length := by
  induction l with
  | nil => intro prev; rfl
  | cons y ys ih => intro prev; simp [rollEmbed, ih]

theorem rollEmbed_chain (w bits mask : Nat) (l : List Nat) :
    ∀ (prev : Nat) (j : Nat) (x p y : Nat),
      (prev :: rollEmbed w bits mask prev l).get? (j + 1) = some x →
      (prev :: rollEmbed w bits mask prev l).get? j = some p →
      l.get? j = some y →
      x = rollStep w bits mask p y := by
  induction l with
  | nil =>
    intro prev j x p y h1 _ _
    simp [rollEmbed] at h1
  | cons z zs ih =>
    intro prev j x p y h1 h2 h3
    cases j with
    | zero =>
      simp [rollEmbed] at h1 h2 h3
      subst h1; subst h2; subst h3; rfl
    | succ j' =>
      have h1' : (rollStep w bits mask prev z :: rollEmbed w bits mask (rollStep w bits mask prev z) zs).get? (j' + 1) = some x := by
        simpa [rollEmbed] using h1
      have h2' : (rollStep w bits mask prev z :: rollEmbed w bits mask (rollStep w bits mask prev z) zs).get? j' = some p := by
        simpa [rollEmbed] using h2
      have h3' : zs.get? j' = some y := by simpa using h3
      exact ih (rollStep w bits mask prev z) j' x p y h1' h2' h3'

theorem rollStep_as_mod (w bits m : Nat) (hm : m ≤ w) (prev x : Nat) :
    (stShl w prev bits ||| x) &&& (2 ^ m - 1) = ((prev <<< bits) ||| x) % 2 ^ m := by
  rw [Nat.and_pow_two_sub_one_eq_mod]
  apply Nat.eq_of_testBit_eq
  intro i
  simp only [Nat.testBit_mod_two_pow, Nat.testBit_lor]
  by_cases hi : i < m
  · have hiw : i < w := lt_of_lt_of_le hi hm
    simp [hi, stShl, Nat.testBit_mod_two_pow, hiw]
  · simp [hi]

theorem embedSeq_none_iff (w bits k : Nat) (remap : Nat → Nat) (s : List Nat) :
    embedSeq w bits k remap s = none ↔ s.length < k := by
  unfold embedSeq
  by_cases h : s.length < k <;> simp [h]

theorem embedSeq_spec (w bits k : Nat) (remap : Nat → Nat) (s o : List Nat)
    (hw : k * bits ≤ w)
    (h : embedSeq w bits k remap s = some o) :
    o.length = s.length - k + 1 ∧
    ∀ j x p y, o.get? (j + 1) = some x → o.get? j = some p → s.get? (j + k) = some y →
      x = ((p <<< bits) ||| remap y) % 2 ^ (k * bits) := by
  unfold embedSeq at h
  by_cases hlen : s.length < k
  · simp [hlen] at h
  · simp only [hlen, if_false, Option.some.injEq] at h
    subst h
    constructor
    · simp [rollEmbed_length]
    · intro j x p y h1 h2 h3
      have h3'' : s.get? (k + j) = some y := by rw [Nat.add_comm]; exact h3
      have h3' : ((s.drop k).map remap).get? j = some (remap y) := by
        rw [List.get?_map, List.get?_drop, h3'']
        rfl
      have := rollEmbed_chain w bits (lowMaskLoop w (k * bits)) ((s.drop k).map remap)
        (embed_word w bits ((s.take k).map remap)) j x p (remap y) h1 h2 h3'
      rw [this]
      unfold rollStep
      rw [lowMaskLoop_eq w (k * bits) hw]
      exact rollStep_as_mod w bits (k * bits) hw p (remap y)

/-- C3: for every store (no active subset, non-empty alphabet histogram),
`embed_features k` fails exactly when some sequence has length `L < k`, and
otherwise turns each sequence of length `L ≥ k` into one of length
`L - k + 1` whose position `j+1` holds the rolling code
`((prev << bits_per_symbol) | remap(symbol_{j+k})) mod 2^(k*bits_per_symbol)`. -/
theorem embed_features_spec (w bits k : Nat) (remap : Nat → Nat) (ss : List (List Nat))
    (hk : 0 < k) (hw : k * bits ≤ w) :
    (embed_features w bits k remap ss = none ↔ ∃ s ∈ ss, s.length < k) ∧
    (∀ out, embed_features w bits k remap ss = some out →
      out.length = ss.length ∧
      ∀ i si oi, ss.get? i = some si → out.get? i = some oi →
        oi.length = si.length - k + 1 ∧
        ∀ j x p y, oi.get? (j + 1) = some x → oi.get? j = some p →
          si.get? (j + k) = some y →
          x = ((p <<< bits) ||| remap y) % 2 ^ (k * bits)) := by
  induction ss with
  | nil =>
    constructor
    · simp [embed_features]
    · intro out hout
      simp [embed_features] at hout
      subst hout
      constructor
      · rfl
      · intro i si oi hsi _
        simp at hsi
  | cons s ss ih =>
    constructor
    · constructor
      · intro h
        unfold embed_features at h
        cases hs : embedSeq w bits k remap s with
        | none =>
          exact ⟨s, by simp, (embedSeq_none_iff w bits k remap s).mp hs⟩
        | some o =>
          cases hss : embed_features w bits k remap ss with
          | none =>
            obtain ⟨t, ht, htl⟩ := ih.1.mp hss
            exact ⟨t, by simp [ht], htl⟩
          | some os => rw [hs, hss] at h; simp at h
      · rintro ⟨t, ht, htl⟩
        unfold embed_features
        rcases List.mem_cons.mp ht with rfl | htss
        · rw [(embedSeq_none_iff w bits k remap t).mpr htl]
        · rw [ih.1.mpr ⟨t, htss, htl⟩]
          cases embedSeq w bits k remap s <;> rfl
    · intro out hout
      unfold embed_features at hout
      cases hs : embedSeq w bits k remap s with
      | none => rw [hs] at hout; simp at hout
      | some o =>
        cases hss : embed_features w bits k remap ss with
        | none => rw [hs, hss] at hout; simp at hout
        | some os =>
          rw [hs, hss] at hout
          simp only [Option.some.injEq] at hout
          subst hout
          have tail := (ih.2) os hss
          constructor
          · simp [tail.1]
          · intro i si oi hsi hoi
            cases i with
            | zero =>
              rw [List.get?_cons_zero] at hsi hoi
              injection hsi with hsi
              injection hoi with hoi
              subst hsi; subst hoi
              exact embedSeq_spec w bits k remap _ _ hw hs
            | succ i' =>
              rw [List.get?_cons_succ] at hsi hoi
              exact tail.2 i' si oi hsi hoi

theorem embed_features_spec_witness :
    embed_features 16 2 2 (fun _ => 1) [[1, 2, 3]] = some [[5, 5]] ∧
    (embed_features 16 2 2 (fun _ => 1) [[1, 2, 3]] = none ↔
      ∃ s ∈ [[1, 2, 3]], List.length s < 2) :=
  ⟨by decide, (embed_features_spec 16 2 2 (fun _ => 1) [[1, 2, 3]] (by decide) (by decide)).1⟩

/-! ## WindowExtractor: `obtain_by_sliding_window` / `obtain_by_position_list`

The store is `features` (each `SGVector` modelled by its `vlen`-visible
contents) plus the optional `single_string`.  Both functions reject active
subsets (`not_implemented`), so subsets do not appear in this model. -/

structure Store where
  features : List (List Nat)
  single_string : Option (List Nat)
deriving DecidableEq

/-- `CStringFeatures::get_max_vector_length` (no subset active). -/
def get_max_vector_length (fs : List (List Nat)) : Nat :=
  fs.foldl (fun m v => max m v.length) 0

/-- `SGVector::slice(l, h)`: the elements in positions `[l, h)`. -/
def slice (s : List Nat) (l h : Nat) : List Nat := (s.take h).drop l

/-- The `ASSERT` guards at the head of `obtain_by_sliding_window`; a failed
`ASSERT` aborts.  The final conjunct makes the `features[0]` access, which
the code performs unconditionally, explicit. -/
def slidingGuard (st : Store) (window step : Nat) : Bool :=
  decide (0 < step) && decide (0 < window) &&
  (st.features.length == 1 || st.single_string.isSome) &&
  (decide (window ≤ get_max_vector_length st.features) ||
    (match st.single_string with
     | some s => decide (window ≤ s.length)
     | none => false)) &&
  !st.features.isEmpty

/-- `CStringFeatures::obtain_by_sliding_window`.  Note the slice loop runs
`for (i=0; i<get_num_vectors(); i++)` — and `features` has not been
replaced yet, so the bound is the OLD vector count, not the freshly
computed `num_vectors`. -/
def obtain_by_sliding_window (st : Store) (window_size step_size skip : Nat) :
    Option (Store × Nat) :=
  if slidingGuard st window_size step_size then
    let num_vectors :=
      match st.single_string with
      | some s => (s.length - window_size) / step_size + 1
      | none =>
        if st.features.length = 1 then
          (get_max_vector_length st.features - window_size) / step_size + 1
        else st.features.length
    let f0 := st.features.headD []
    let f := (List.range st.features.length).map (fun i =>
      slice f0 (i * step_size + skip) (min (i * step_size + window_size) f0.length))
    some ({ features := f, single_string := some f0 }, num_vectors)
  else none

/-- C4: evidence for the claim's failure.  On a store holding exactly one
sequence of length `L = 3` with `W = 1`, `Stp = 1`, `skip = 0`, the claim
(and spec §4.4/§8) promise `floor((L−W)/Stp)+1 = 3` windows; the code
returns 3 but replaces the contents with only ONE window (the slice loop
iterates over the old vector count).  The original sequence is retained as
`single_string`. -/
theorem obtain_by_sliding_window_bug :
    obtain_by_sliding_window ⟨[[10, 11, 12]], none⟩ 1 1 0
      = some (⟨[[10]], some [10, 11, 12]⟩, 3) ∧
    ∀ st' n, obtain_by_sliding_window ⟨[[10, 11, 12]], none⟩ 1 1 0 = some (st', n) →
      st'.features.length ≠ n := by
  constructor
  · rfl
  · intro st' n h
    have h' : st' = ⟨[[10]], some [10, 11, 12]⟩ ∧ n = 3 := by
      have : (some (⟨[[10]], some [10, 11, 12]⟩, 3) :
          Option (Store × Nat)) = some (st', n) := by rw [← h]; rfl
      simp at this
      exact ⟨this.1.symm, this.2.symm⟩
    rw [h'.1, h'.2]
    decide

/-- Loop result of `obtain_by_position_list`: normal completion returning
`num_vectors`, abort at the first out-of-range position (index carried),
or an `ASSERT` failure before the loop. -/
inductive PosResult where
  | ok (num : Nat)
  | badPosition (i : Nat)
  | assertFail
deriving DecidableEq

/-- The window-extraction loop of `obtain_by_position_list`: each good
position contributes `features[0].slice(p+skip, min(p+window, size))` with
`vlen` then set to `window-skip`; the first bad position aborts, reporting
its index. -/
def posLoop (f0 : List Nat) (len window skip : Nat) :
    List Int → Nat → List (List Nat) → List (List Nat) × Option Nat
  | [], _, acc => (acc, none)
  | p :: ps, i, acc =>
    if 0 ≤ p ∧ p ≤ (len : Int) - window then
      posLoop f0 len window skip ps (i + 1)
        (acc ++ [(slice f0 (p.toNat + skip) (min (p.toNat + window) f0.length)).take (window - skip)])
    else (acc, some i)

/-- The `ASSERT` guards at the head of `obtain_by_position_list`. -/
def posGuard (st : Store) (window : Nat) (positions : List Int) : Bool :=
  decide (0 < window) &&
  (st.features.length == 1 || st.single_string.isSome) &&
  (decide (window ≤ get_max_vector_length st.features) ||
    (match st.single_string with
     | some s => decide (window ≤ s.length)
     | none => false)) &&
  decide (0 < positions.length) &&
  !st.features.isEmpty

/-- `CStringFeatures::obtain_by_position_list`.  On the error path the code
executes `features[0].vlen=len; single_string=SGVector<ST>();` and throws:
the freshly built windows (local `f`) are discarded, `single_string` is
cleared, and `features[0]`'s length is set back to `len`.  In this model a
vector is its `vlen`-visible contents, so the `vlen` write is the identity
whenever `len` equals `features[0]`'s current length — which holds in every
state reachable with `single_string` unset, the situation of claim C8. -/
def obtain_by_position_list (st : Store) (window : Nat) (positions : List Int) (skip : Nat) :
    Store × PosResult :=
  if posGuard st window positions then
    let len :=
      match st.single_string with
      | some s => s.length
      | none => get_max_vector_length st.features
    let sing :=
      match st.single_string with
      | some s => some s
      | none => some (st.features.headD [])
    let f0 := st.features.headD []
    match posLoop f0 len window skip positions 0 [] with
    | (f, none) => ({ features := f, single_string := sing }, .ok positions.length)
    | (_, some i) => ({ features := st.features, single_string := none }, .badPosition i)
  else (st, .assertFail)

theorem get_max_vector_length_singleton (s : List Nat) :
    get_max_vector_length [s] = s.length := by
  simp [get_max_vector_length]

theorem posLoop_stops (f0 : List Nat) (len window skip : Nat) :
    ∀ (ps : List Int) (j offset : Nat) (acc : List (List Nat)),
      j < ps.length →
      ¬ (0 ≤ ps.getD j 0 ∧ ps.getD j 0 ≤ (len : Int) - window) →
      (∀ i, i < j → (0 ≤ ps.getD i 0 ∧ ps.getD i 0 ≤ (len : Int) - window)) →
      ∃ acc', posLoop f0 len window skip ps offset acc = (acc', some (offset + j)) := by
  intro ps
  induction ps with
  | nil =>
    intro j offset acc hj _ _
    exact absurd hj (by simp)
  | cons p ps ih =>
    intro j offset acc hj hbad hgood
    cases j with
    | zero =>
      refine ⟨acc, ?_⟩
      unfold posLoop
      rw [if_neg (by simpa using hbad)]
      rfl
    | succ j' =>
      have hp : 0 ≤ p ∧ p ≤ (len : Int) - window := by
        have := hgood 0 (by omega)
        simpa using this
      unfold posLoop
      rw [if_pos hp]
      have hbad' : ¬ (0 ≤ ps.getD j' 0 ∧ ps.getD j' 0 ≤ (len : Int) - window) := by
        simpa using hbad
      have hgood' : ∀ i, i < j' → (0 ≤ ps.getD i 0 ∧ ps.getD i 0 ≤ (len : Int) - window) := by
        intro i hi
        have := hgood (i + 1) (by omega)
        simpa using this
      obtain ⟨acc', hacc⟩ := ih j' (offset + 1)
        (acc ++ [(slice f0 (p.toNat + skip) (min (p.toNat + window) f0.length)).take (window - skip)])
        (by simpa using hj) hbad' hgood'
      have harith : offset + 1 + j' = offset + (j' + 1) := by omega
      exact ⟨acc', by rw [hacc, harith]⟩

/-- C8: if the store holds a single sequence (no `single_string` yet) and
some supplied position `p` violates `0 ≤ p ≤ length - window_size`, then
`obtain_by_position_list` fails at the FIRST such violation and the store
afterwards equals its pre-call state: the window slices built so far are
discarded, `single_string` is cleared back to unset, and the original
sequence keeps its length. -/
theorem obtain_by_position_list_rollback (st : Store) (s : List Nat)
    (window skip : Nat) (positions : List Int) (j : Nat)
    (hf : st.features = [s]) (hsing : st.single_string = none)
    (hw : 0 < window) (hws : window ≤ s.length)
    (hj : j < positions.length)
    (hbad : ¬ (0 ≤ positions.getD j 0 ∧ positions.getD j 0 ≤ (s.length : Int) - window))
    (hgood : ∀ i, i < j → (0 ≤ positions.getD i 0 ∧ positions.getD i 0 ≤ (s.length : Int) - window)) :
    obtain_by_position_list st window positions skip = (st, .badPosition j) := by
  obtain ⟨fts, sing⟩ := st
  simp only at hf hsing
  subst hf; subst hsing
  have hguard : posGuard ⟨[s], none⟩ window positions = true := by
    simp [posGuard, get_max_vector_length_singleton, hw, hws]
    omega
  unfold obtain_by_position_list
  rw [hguard]
  simp only [if_true]
  obtain ⟨acc', hacc⟩ := posLoop_stops ([s].headD []) (get_max_vector_length [s])
    window skip positions j 0 [] hj
    (by rw [get_max_vector_length_singleton]; exact hbad)
    (by rw [get_max_vector_length_singleton]; exact hgood)
  rw [Nat.zero_add] at hacc
  rw [hacc]

theorem obtain_by_position_list_rollback_witness :
    obtain_by_position_list ⟨[[0, 1, 2, 3]], none⟩ 2 [0, 5] 0
      = (⟨[[0, 1, 2, 3]], none⟩, .badPosition 1) :=
  obtain_by_position_list_rollback ⟨[[0, 1, 2, 3]], none⟩ [0, 1, 2, 3] 2 0 [0, 5] 1
    rfl rfl (by decide) (by decide) (by decide) (by decide)
    (by intro i hi; interval_cases i <;> decide)

/-! ## SymbolSequenceStore: `set_features`

The Alphabet collaborator is modelled by its observable pieces: its kind,
the byte-frequency histogram (the list of all values added, in order), and
the external validation `check_alphabet_size() && check_alphabet()`
(parameter `checkOk`, a function of kind and histogram). -/

structure FeatState where
  feats : List (List Nat)
  kind : Nat
  hist : List Nat
  hasSub : Bool
deriving DecidableEq

/-- The histogram computed by `set_features`: the loop
`for i: alpha->add_string_to_histogram(p_features[i].vector, vlen)`. -/
def histogram_of (ss : List (List Nat)) : List Nat :=
  ss.foldl (fun h v => h ++ v) []

/-- `CStringFeatures::set_features(p_features, p_num_vectors)`: errors under
an active subset; computes the histogram of the input on a fresh Alphabet of
the current kind; on passing validation it runs `cleanup()` and installs the
new Alphabet and the copied input, else it discards the fresh Alphabet and
returns `false` leaving the state untouched.  (The `if (p_features)` null
check is a property of the caller's pointer, not of the list; claims are
stated for non-empty lists, where `data()` is non-null.) -/
def set_features (checkOk : Nat → List Nat → Bool) (st : FeatState)
    (input : List (List Nat)) : Option (Bool × FeatState) :=
  if st.hasSub then none
  else if checkOk st.kind (histogram_of input) then
    some (true, { feats := input, kind := st.kind, hist := histogram_of input, hasSub := false })
  else some (false, st)

/-- C7: `set_features` either succeeds — wholesale-replacing the stored
sequences and installing a fresh Alphabet of the same kind carrying the new
histogram — or, when histogram validation fails, returns `false` leaving
the stored sequences and the published Alphabet exactly as before. -/
theorem set_features_spec (checkOk : Nat → List Nat → Bool) (st : FeatState)
    (input : List (List Nat)) (hsub : st.hasSub = false) (hne : input ≠ []) :
    (checkOk st.kind (histogram_of input) = true →
      set_features checkOk st input
        = some (true, ⟨input, st.kind, histogram_of input, false⟩)) ∧
    (checkOk st.kind (histogram_of input) = false →
      set_features checkOk st input = some (false, st)) := by
  unfold set_features
  rw [hsub]
  constructor
  · intro h
    simp [h]
  · intro h
    simp [h]

theorem set_features_spec_witness :
    set_features (fun _ _ => true) ⟨[[9]], 3, [9], false⟩ [[1, 2]]
      = some (true, ⟨[[1, 2]], 3, [1, 2], false⟩) ∧
    set_features (fun _ _ => false) ⟨[[9]], 3, [9], false⟩ [[1, 2]]
      = some (false, ⟨[[9]], 3, [9], false⟩) :=
  ⟨(set_features_spec (fun _ _ => true) ⟨[[9]], 3, [9], false⟩ [[1, 2]] rfl (by simp)).1 rfl,
   (set_features_spec (fun _ _ => false) ⟨[[9]], 3, [9], false⟩ [[1, 2]] rfl (by simp)).2 rfl⟩

/-! ## FormatLoader: `load_fastq_file` in bit-remap mode

The memory-mapped byte source is modelled by its list of lines (the
`get_line` interface).  `order` is set to the length of line 1 — the first
read — before the per-read loop. -/

/-- The per-read loop of `load_fastq_file` with
`bitremap_in_single_string=true`: for read `idx`, the id line, read line,
quality-id line and quality line must all exist; an empty or
wrong-length (`len != order`) read aborts; otherwise the remapped read is
packed by `embed_word` into entry `idx` of the aggregate vector. -/
def fastqEntries (w bits k : Nat) (remap : Nat → Nat) (lines : List (List Nat)) :
    Nat → Nat → Option (List Nat)
  | _, 0 => some []
  | idx, c + 1 =>
    match lines.get? (4 * idx), lines.get? (4 * idx + 1),
        lines.get? (4 * idx + 2), lines.get? (4 * idx + 3) with
    | some _, some s, some _, some _ =>
      if s.length = 0 then none
      else if s.length ≠ k then none
      else
        match fastqEntries w bits k remap lines (idx + 1) c with
        | some rest => some (embed_word w bits (s.map remap) :: rest)
        | none => none
    | _, _, _, _ => none

/-- `CStringFeatures::load_fastq_file` with `bitremap_in_single_string=true`:
the line count must be divisible by 4; `order` is the length of the first
read (line 1); the store is replaced by ONE aggregate sequence holding one
packed code per read. -/
def load_fastq_bitremap (w bits : Nat) (remap : Nat → Nat)
    (lines : List (List Nat)) : Option (List (List Nat)) :=
  if lines.length % 4 ≠ 0 then none
  else
    match fastqEntries w bits
        (match lines.get? 1 with
         | some l => l.length
         | none => 0) remap lines 0 (lines.length / 4) with
    | some es => some [es]
    | none => none

theorem fastqEntries_ok (w bits k : Nat) (remap : Nat → Nat) (lines : List (List Nat))
    (hk : 0 < k) :
    ∀ (c idx : Nat), 4 * (idx + c) ≤ lines.length →
      (∀ i s, idx ≤ i → i < idx + c → lines.get? (4 * i + 1) = some s → s.length = k) →
      ∃ es, fastqEntries w bits k remap lines idx c = some es ∧ es.length = c ∧
        ∀ j s, j < c → lines.get? (4 * (idx + j) + 1) = some s →
          es.get? j = some (embed_word w bits (s.map remap)) := by
  intro c
  induction c with
  | zero =>
    intro idx _ _
    exact ⟨[], rfl, rfl, fun j s hj _ => absurd hj (by omega)⟩
  | succ c ih =>
    intro idx hbound hall
    cases h0 : lines.get? (4 * idx) with
    | none => exact absurd (List.get?_eq_none.mp h0) (by omega)
    | some idl =>
    cases h1 : lines.get? (4 * idx + 1) with
    | none => exact absurd (List.get?_eq_none.mp h1) (by omega)
    | some s =>
    cases h2 : lines.get? (4 * idx + 2) with
    | none => exact absurd (List.get?_eq_none.mp h2) (by omega)
    | some q0 =>
    cases h3 : lines.get? (4 * idx + 3) with
    | none => exact absurd (List.get?_eq_none.mp h3) (by omega)
    | some q1 =>
    have hs : s.length = k := hall idx s (by omega) (by omega) h1
    obtain ⟨rest, hrest, hlen, hget⟩ := ih (idx + 1) (by omega)
      (fun i t hi1 hi2 ht => hall i t (by omega) (by omega) ht)
    refine ⟨embed_word w bits (s.map remap) :: rest, ?_, by simp [hlen], ?_⟩
    · unfold fastqEntries
      rw [h0, h1, h2, h3]
      have hs0 : ¬ s.length = 0 := by rw [hs]; omega
      have hsk : ¬ s.length ≠ k := by rw [hs]; simp
      simp [hs0, hsk, hrest]
    · intro j t hj ht
      cases j with
      | zero =>
        have ht' : lines.get? (4 * idx + 1) = some t := by
          have he : 4 * (idx + 0) + 1 = 4 * idx + 1 := by omega
          rw [he] at ht
          exact ht
        rw [h1] at ht'
        injection ht' with ht'
        subst ht'
        rfl
      | succ j' =>
        have ht' : lines.get? (4 * (idx + 1 + j') + 1) = some t := by
          have : idx + (j' + 1) = idx + 1 + j' := by omega
          rw [this] at ht
          exact ht
        have := hget j' t (by omega) ht'
        simpa using this

theorem fastqEntries_fail (w bits k : Nat) (remap : Nat → Nat) (lines : List (List Nat)) :
    ∀ (c idx : Nat),
      (∃ i s, idx ≤ i ∧ i < idx + c ∧ lines.get? (4 * i + 1) = some s ∧ s.length ≠ k) →
      fastqEntries w bits k remap lines idx c = none := by
  intro c
  induction c with
  | zero =>
    rintro idx ⟨i, s, hi1, hi2, _, _⟩
    omega
  | succ c ih =>
    rintro idx ⟨i, s, hi1, hi2, hs, hsk⟩
    unfold fastqEntries
    cases h0 : lines.get? (4 * idx) with
    | none => rfl
    | some idl =>
    cases h1 : lines.get? (4 * idx + 1) with
    | none => rfl
    | some t =>
    cases h2 : lines.get? (4 * idx + 2) with
    | none => rfl
    | some q0 =>
    cases h3 : lines.get? (4 * idx + 3) with
    | none => rfl
    | some q1 =>
    by_cases ht0 : t.length = 0
    · simp [ht0]
    · by_cases htk : t.length ≠ k
      · simp [ht0, htk]
      · have hik : i ≠ idx := by
          intro he
          subst he
          rw [hs] at h1
          injection h1 with h1
          subst h1
          exact hsk (by simpa using htk)
        simp [ht0, htk, ih (idx + 1) ⟨i, s, by omega, by omega, hs, hsk⟩]

/-- C6: for every FASTQ source of `n > 0` reads, loading in bit-remap mode
with first-read length `k > 0` yields, when every read has length `k`, a
store holding exactly ONE aggregate sequence of length `n` whose entry `i`
is `embed_word` of the alphabet-remapped `i`-th read; and it fails when
some read's length differs from `k`. -/
theorem load_fastq_bitremap_spec (w bits n k : Nat) (remap : Nat → Nat)
    (lines : List (List Nat)) (l0 : List Nat)
    (hlen : lines.length = 4 * n) (hn : 0 < n) (hk : 0 < k)
    (hl0 : lines.get? 1 = some l0) (hk0 : l0.length = k) :
    ((∀ i s, i < n → lines.get? (4 * i + 1) = some s → s.length = k) →
      ∃ es, load_fastq_bitremap w bits remap lines = some [es] ∧ es.length = n ∧
        ∀ i s, i < n → lines.get? (4 * i + 1) = some s →
          es.get? i = some (embed_word w bits (s.map remap))) ∧
    ((∃ i s, i < n ∧ lines.get? (4 * i + 1) = some s ∧ s.length ≠ k) →
      load_fastq_bitremap w bits remap lines = none) := by
  have hdiv : lines.length / 4 = n := by omega
  have hmod : ¬ lines.length % 4 ≠ 0 := by omega
  constructor
  · intro hall
    obtain ⟨es, hes, heslen, hesget⟩ := fastqEntries_ok w bits k remap lines hk n 0
      (by omega) (fun i s _ hi hs => hall i s (by omega) hs)
    refine ⟨es, ?_, heslen, fun i s hi hs => hesget i s hi (by simpa using hs)⟩
    unfold load_fastq_bitremap
    rw [if_neg hmod, hl0]
    simp only [hk0, hdiv, hes]
  · rintro ⟨i, s, hi, hs, hsk⟩
    unfold load_fastq_bitremap
    rw [if_neg hmod, hl0]
    simp only [hk0, hdiv,
      fastqEntries_fail w bits k remap lines n 0 ⟨i, s, by omega, by omega, hs, hsk⟩]

theorem load_fastq_bitremap_spec_witness :
    load_fastq_bitremap 8 2 (fun x => x)
      [[64], [1, 2], [43], [5, 5], [64], [3, 0], [43], [5, 5]] = some [[6, 12]] ∧
    load_fastq_bitremap 8 2 (fun x => x)
      [[64], [1, 2], [43], [5, 5], [64], [3], [43], [5, 5]] = none :=
  ⟨by decide,
   (load_fastq_bitremap_spec 8 2 2 2 (fun x => x)
       [[64], [1, 2], [43], [5, 5], [64], [3], [43], [5, 5]] [1, 2]
       rfl (by decide) (by decide) rfl rfl).2
     ⟨1, [3], by decide, rfl, by decide⟩⟩

/-! ## CompressedCodec: `save_compressed` / `load_compressed`

The on-disk stream is a byte list.  `int32` fields are four little-endian
bytes; `load_compressed` reads them back as signed two's-complement values.
The Compressor collaborator is the parameter pair `compressFn` /
`decompressFn` on payloads; one model symbol stands for one `ST` element,
so the `uncompressed_size == len_uncompressed*sizeof(ST)` check appears
with the constant `sizeof(ST)` factor cancelled. -/

/-- Little-endian 4-byte image of a non-negative `int32` (`fwrite` of the
value). -/
def encode32 (n : Nat) : List Nat :=
  [n % 256, n / 256 % 256, n / 65536 % 256, n / 16777216 % 256]

/-- Reassembling 4 bytes into the signed `int32` that `fread` yields. -/
def decodeInt32 (b0 b1 b2 b3 : Nat) : Int :=
  let u := b0 % 256 + 256 * (b1 % 256) + 65536 * (b2 % 256) + 16777216 * (b3 % 256)
  if u < 2147483648 then (u : Int) else (u : Int) - 4294967296

/-- `fread` of one `int32`: fails on a short stream. -/
def readInt32 : List Nat → Option (Int × List Nat)
  | b0 :: b1 :: b2 :: b3 :: rest => some (decodeInt32 b0 b1 b2 b3, rest)
  | _ => none

/-- `fread` of `k` raw bytes: fails (short count) when fewer remain. -/
def readBytes (k : Nat) (s : List Nat) : Option (List Nat × List Nat) :=
  if s.length < k then none else some (s.take k, s.drop k)

/-- One frame as written by `save_compressed`:
`{4-byte compressed length, 4-byte uncompressed length, payload}`. -/
def frameBytes (du : Nat) (payload : List Nat) : List Nat :=
  encode32 payload.length ++ encode32 du ++ payload

/-- The per-record frames of a compressed file, in order. -/
def mkFrames : List (Nat × List Nat) → List Nat
  | [] => []
  | (du, p) :: fs => frameBytes du p ++ mkFrames fs

/-- A compressed file: `"SGV0"`, compression-type byte, alphabet byte,
record count, maximum record length, frames. -/
def mkFrameFile (c a n maxlen : Nat) (frames : List (Nat × List Nat)) : List Nat :=
  83 :: 71 :: 86 :: 48 :: c % 256 :: a % 256 ::
    (encode32 n ++ (encode32 maxlen ++ mkFrames frames))

/-- `CStringFeatures::save_compressed` on an open destination: header,
then one frame per vector whose payload is the compressed vector and whose
declared uncompressed length counts `ST` elements.  (When the destination
cannot be opened the function returns `false` having written nothing;
active subsets are rejected before any output.) -/
def save_compressed (compressFn : List Nat → List Nat) (c a : Nat)
    (ss : List (List Nat)) : List Nat :=
  mkFrameFile c a ss.length (get_max_vector_length ss)
    (ss.map fun v => (v.length, compressFn v))

/-- Abort causes inside `load_compressed` (each is an `error(...)` call or
a failed `ASSERT`). -/
inductive LoadErr where
  | badHeader
  | badCount
  | badMaxLen
  | badFrame
  | sizeMismatch
deriving DecidableEq

/-- The per-vector loop of `load_compressed`: read the two `int32` lengths,
then the payload.  In decompress (eager) mode the frame is decompressed and
the result size must equal the declared uncompressed length
(`ASSERT(uncompressed_size==len_uncompressed*sizeof(ST))`), the decompressed
symbols becoming the stored vector.  Otherwise the two lengths and the
still-compressed payload are stored in place (the byte-packing of the two
header fields into the `ST` buffer is abstracted as two leading entries).
A negative length field can satisfy neither `fread`'s expected count nor
the vector allocation, so it aborts. -/
def loadFrames (decompressFn : List Nat → List Nat) (decompress : Bool) :
    Nat → List Nat → Except LoadErr (List (List Nat))
  | 0, _ => .ok []
  | n + 1, s =>
    match readInt32 s with
    | none => .error .badFrame
    | some (lenC, s1) =>
      match readInt32 s1 with
      | none => .error .badFrame
      | some (lenU, s2) =>
        if lenC < 0 ∨ lenU < 0 then .error .badFrame
        else
          match readBytes lenC.toNat s2 with
          | none => .error .badFrame
          | some (payload, s3) =>
            if decompress then
              if (decompressFn payload).length ≠ lenU.toNat then .error .sizeMismatch
              else
                match loadFrames decompressFn decompress n s3 with
                | .ok rest => .ok (decompressFn payload :: rest)
                | .error e => .error e
            else
              match loadFrames decompressFn decompress n s3 with
              | .ok rest => .ok ((lenC.toNat :: lenU.toNat :: payload) :: rest)
              | .error e => .error e

/-- The body of `load_compressed` once the file opened: the four header
bytes are read and `ASSERT`ed one at a time and the compression/alphabet
bytes read (any wrong or missing byte among the first six aborts); the
vector count and maximum string length must be positive; the frames
follow; and the final statement is `return false`. -/
def load_opened (decompressFn : List Nat → List Nat) (decompress : Bool)
    (s : List Nat) : Except LoadErr (Bool × List (List Nat)) :=
  if s.length < 6 ∨ s.take 4 ≠ [83, 71, 86, 48] then .error .badHeader
  else
    match readInt32 (s.drop 6) with
    | none => .error .badCount
    | some (nv, s1) =>
      if nv ≤ 0 then .error .badCount
      else
        match readInt32 s1 with
        | none => .error .badMaxLen
        | some (maxlen, s2) =>
          if maxlen ≤ 0 then .error .badMaxLen
          else
            match loadFrames decompressFn decompress nv.toNat s2 with
            | .ok fs => .ok (false, fs)
            | .error e => .error e

/-- `CStringFeatures::load_compressed`.  `file = none` models a failed
`fopen`: the function returns `false` before mutating anything (`pre` is
the store's prior contents). -/
def load_compressed (decompressFn : List Nat → List Nat) (decompress : Bool)
    (pre : List (List Nat)) : Option (List Nat) → Except LoadErr (Bool × List (List Nat))
  | none => .ok (false, pre)
  | some s => load_opened decompressFn decompress s

theorem load_compressed_some (decompressFn : List Nat → List Nat) (decompress : Bool)
    (pre : List (List Nat)) (s : List Nat) :
    load_compressed decompressFn decompress pre (some s)
      = load_opened decompressFn decompress s := rfl

theorem decodeInt32_encode (n : Nat) (h : n < 2147483648) :
    decodeInt32 (n % 256) (n / 256 % 256) (n / 65536 % 256) (n / 16777216 % 256) = (n : Int) := by
  unfold decodeInt32
  have hu : n % 256 % 256 + 256 * (n / 256 % 256 % 256) + 65536 * (n / 65536 % 256 % 256)
      + 16777216 * (n / 16777216 % 256 % 256) = n := by omega
  simp only [hu]
  rw [if_pos h]

theorem readInt32_encode32 (n : Nat) (rest : List Nat) (h : n < 2147483648) :
    readInt32 (encode32 n ++ rest) = some ((n : Int), rest) := by
  show some (decodeInt32 (n % 256) (n / 256 % 256) (n / 65536 % 256) (n / 16777216 % 256), rest)
      = some ((n : Int), rest)
  rw [decodeInt32_encode n h]

theorem readBytes_exact (p rest : List Nat) :
    readBytes p.length (p ++ rest) = some (p, rest) := by
  unfold readBytes
  rw [if_neg (by simp), List.take_left, List.drop_left]

theorem loadFrames_ok (decompressFn : List Nat → List Nat) :
    ∀ (frames : List (Nat × List Nat)) (rest : List Nat),
      (∀ f ∈ frames, (decompressFn f.2).length = f.1) →
      (∀ f ∈ frames, f.1 < 2147483648 ∧ f.2.length < 2147483648) →
      loadFrames decompressFn true frames.length (mkFrames frames ++ rest)
        = .ok (frames.map fun f => decompressFn f.2) := by
  intro frames
  induction frames with
  | nil => intro rest _ _; rfl
  | cons f fs ih =>
    intro rest hsize hbound
    obtain ⟨du, p⟩ := f
    have hb := hbound (du, p) (by simp)
    have hs : (decompressFn p).length = du := hsize (du, p) (by simp)
    have hstream : (mkFrames ((du, p) :: fs)) ++ rest
        = encode32 p.length ++ (encode32 du ++ (p ++ (mkFrames fs ++ rest))) := by
      show (frameBytes du p ++ mkFrames fs) ++ rest = _
      unfold frameBytes
      simp [List.append_assoc]
    show loadFrames decompressFn true (fs.length + 1) (mkFrames ((du, p) :: fs) ++ rest) = _
    rw [hstream]
    unfold loadFrames
    simp only [readInt32_encode32 p.length _ hb.2, readInt32_encode32 du _ hb.1]
    rw [if_neg (by omega)]
    simp only [Int.toNat_ofNat, readBytes_exact p (mkFrames fs ++ rest), if_true]
    rw [if_neg (by simp [hs])]
    simp only [ih rest (fun g hg => hsize g (by simp [hg]))
      (fun g hg => hbound g (by simp [hg]))]
    rfl

theorem loadFrames_mismatch (decompressFn : List Nat → List Nat) :
    ∀ (frames : List (Nat × List Nat)) (rest : List Nat),
      (∀ f ∈ frames, f.1 < 2147483648 ∧ f.2.length < 2147483648) →
      (∃ f ∈ frames, (decompressFn f.2).length ≠ f.1) →
      ∃ e, loadFrames decompressFn true frames.length (mkFrames frames ++ rest)
        = .error e := by
  intro frames
  induction frames with
  | nil =>
    rintro rest _ ⟨f, hf, _⟩
    exact absurd hf (by simp)
  | cons f fs ih =>
    rintro rest hbound ⟨g, hg, hgbad⟩
    obtain ⟨du, p⟩ := f
    have hb := hbound (du, p) (by simp)
    have hstream : (mkFrames ((du, p) :: fs)) ++ rest
        = encode32 p.length ++ (encode32 du ++ (p ++ (mkFrames fs ++ rest))) := by
      show (frameBytes du p ++ mkFrames fs) ++ rest = _
      unfold frameBytes
      simp [List.append_assoc]
    show ∃ e, loadFrames decompressFn true (fs.length + 1)
        (mkFrames ((du, p) :: fs) ++ rest) = .error e
    rw [hstream]
    unfold loadFrames
    simp only [readInt32_encode32 p.length _ hb.2, readInt32_encode32 du _ hb.1]
    rw [if_neg (by omega)]
    simp only [Int.toNat_ofNat, readBytes_exact p (mkFrames fs ++ rest), if_true]
    by_cases hdp : (decompressFn p).length = du
    · rw [if_neg (by simp [hdp])]
      have hgfs : g ∈ fs := by
        rcases List.mem_cons.mp hg with rfl | h
        · exact absurd hdp hgbad
        · exact h
      obtain ⟨e, he⟩ := ih rest (fun h hh => hbound h (by simp [hh])) ⟨g, hgfs, hgbad⟩
      exact ⟨e, by simp only [he]⟩
    · exact ⟨.sizeMismatch, by rw [if_pos (by simp [hdp])]⟩

/-- C1 counterexample: the claim as stated fails for the non-empty sequence
set `S = [[]]` (one sequence of length zero, identity compressor): the
saved file declares `max_string_length = 0` and `load_compressed` aborts on
`ASSERT(max_string_length>0)` instead of reproducing `S`. -/
theorem load_of_save_all_empty :
    load_compressed (fun l => l) true [] (some (save_compressed (fun l => l) 0 1 [[]]))
      = .error .badMaxLen ∧
    load_compressed (fun l => l) true [] (some (save_compressed (fun l => l) 0 1 [[]]))
      ≠ .ok (false, [[]]) := by
  have h1 : load_compressed (fun l => l) true [] (some (save_compressed (fun l => l) 0 1 [[]]))
      = .error .badMaxLen := rfl
  exact ⟨h1, by rw [h1]; simp⟩

/-- C1 (amended): for every non-empty sequence set `S` containing at least
one non-empty sequence, stored without an active subset, writing with
`save_compressed` and reading back with `load_compressed` in eager mode
yields a store whose sequences equal `S` element for element (while the
function still returns `false`, see C10); and in eager mode a well-formed
file among whose frames is one whose decompressed size differs from the
declared uncompressed length makes the load fail. -/
theorem save_load_compressed_roundtrip (compressFn decompressFn : List Nat → List Nat)
    (c a : Nat) (pre ss : List (List Nat))
    (hne : ss ≠ [])
    (hmax : 0 < get_max_vector_length ss)
    (hcount : ss.length < 2147483648)
    (hmaxlen : get_max_vector_length ss < 2147483648)
    (hinv : ∀ v ∈ ss, decompressFn (compressFn v) = v)
    (hclen : ∀ v ∈ ss, (compressFn v).length < 2147483648)
    (hulen : ∀ v ∈ ss, v.length < 2147483648) :
    load_compressed decompressFn true pre (some (save_compressed compressFn c a ss))
      = .ok (false, ss) ∧
    (∀ n maxlen frames, 0 < n → n = (frames : List (Nat × List Nat)).length →
      n < 2147483648 → 0 < maxlen → maxlen < 2147483648 →
      (∀ f ∈ frames, f.1 < 2147483648 ∧ f.2.length < 2147483648) →
      (∃ f ∈ frames, (decompressFn f.2).length ≠ f.1) →
      ∃ e, load_compressed decompressFn true pre (some (mkFrameFile c a n maxlen frames))
        = .error e) := by
  constructor
  · have hmaps : ((ss.map fun v => (v.length, compressFn v)).map fun f => decompressFn f.2)
        = ss := by
      rw [List.map_map]
      have h1 : ss.map ((fun f => decompressFn f.2) ∘ (fun v => (v.length, compressFn v)))
          = ss.map id := by
        apply List.map_congr_left
        intro v hv
        exact hinv v hv
      rw [h1, List.map_id]
    have hlf := loadFrames_ok decompressFn (ss.map fun v => (v.length, compressFn v)) []
      (by intro f hf
          obtain ⟨v, hv, rfl⟩ := List.mem_map.mp hf
          simp [hinv v hv])
      (by intro f hf
          obtain ⟨v, hv, rfl⟩ := List.mem_map.mp hf
          exact ⟨hulen v hv, hclen v hv⟩)
    rw [List.append_nil] at hlf
    simp only [List.length_map] at hlf
    rw [hmaps] at hlf
    rw [load_compressed_some]
    unfold save_compressed mkFrameFile load_opened
    rw [if_neg (by simp)]
    have hdrop : (83 :: 71 :: 86 :: 48 :: c % 256 :: a % 256 ::
        (encode32 ss.length ++ (encode32 (get_max_vector_length ss)
          ++ mkFrames (ss.map fun v => (v.length, compressFn v))))).drop 6
        = encode32 ss.length ++ (encode32 (get_max_vector_length ss)
          ++ mkFrames (ss.map fun v => (v.length, compressFn v))) := rfl
    rw [hdrop]
    simp only [readInt32_encode32 ss.length _ hcount]
    have hnv : ¬ ((ss.length : Int) ≤ 0) := by
      have : ss.length ≠ 0 := fun h => hne (List.length_eq_zero.mp h)
      omega
    rw [if_neg hnv]
    simp only [readInt32_encode32 (get_max_vector_length ss) _ hmaxlen]
    rw [if_neg (by omega : ¬ ((get_max_vector_length ss : Int) ≤ 0))]
    simp only [Int.toNat_ofNat, hlf]
  · intro n maxlen frames hn hlen hn2 hm hm2 hbound hmis
    obtain ⟨e, he⟩ := loadFrames_mismatch decompressFn frames [] hbound hmis
    rw [List.append_nil] at he
    refine ⟨e, ?_⟩
    rw [load_compressed_some]
    unfold mkFrameFile load_opened
    rw [if_neg (by simp)]
    have hdrop : (83 :: 71 :: 86 :: 48 :: c % 256 :: a % 256 ::
        (encode32 n ++ (encode32 maxlen ++ mkFrames frames))).drop 6
        = encode32 n ++ (encode32 maxlen ++ mkFrames frames) := rfl
    rw [hdrop]
    simp only [readInt32_encode32 n _ hn2]
    rw [if_neg (by omega : ¬ ((n : Int) ≤ 0))]
    simp only [readInt32_encode32 maxlen _ hm2]
    rw [if_neg (by omega : ¬ ((maxlen : Int) ≤ 0))]
    simp only [Int.toNat_ofNat]
    subst hlen
    simp only [he]

theorem save_load_compressed_roundtrip_witness :
    load_compressed (fun l => l) true [] (some (save_compressed (fun l => l) 2 1 [[7, 8]]))
      = .ok (false, [[7, 8]]) :=
  (save_load_compressed_roundtrip (fun l => l) (fun l => l) 2 1 [] [[7, 8]]
    (by simp) (by decide) (by decide) (by decide)
    (fun v _ => rfl) (fun v hv => by simp at hv; subst hv; decide)
    (fun v hv => by simp at hv; subst hv; decide)).1

/-- C10: `load_compressed` returns `false` on every execution path that
returns, including the fully successful eager path; a failed `fopen`
returns `false` before any mutation of the store. -/
theorem load_compressed_returns_false (decompressFn : List Nat → List Nat)
    (dm : Bool) (pre : List (List Nat)) (file : Option (List Nat)) :
    (∀ b fs, load_compressed decompressFn dm pre file = .ok (b, fs) → b = false) ∧
    load_compressed decompressFn dm pre none = .ok (false, pre) := by
  constructor
  · intro b fs h
    cases file with
    | none =>
      unfold load_compressed at h
      simp at h
      exact h.1
    | some s =>
      rw [load_compressed_some] at h
      unfold load_opened at h
      repeat' split at h
      all_goals simp_all
  · rfl

theorem load_compressed_returns_false_witness :
    load_compressed (fun l => l) true []
        (some [83, 71, 86, 48, 0, 1, 1, 0, 0, 0, 1, 0, 0, 0, 1, 0, 0, 0, 1, 0, 0, 0, 7])
      = .ok (false, [[7]]) ∧
    (false : Bool) = false :=
  ⟨rfl,
   (load_compressed_returns_false (fun l => l) true []
       (some [83, 71, 86, 48, 0, 1, 1, 0, 0, 0, 1, 0, 0, 0, 1, 0, 0, 0, 1, 0, 0, 0, 7])).1
     false [[7]] rfl⟩

/-! ## FormatLoader: `load_from_directory`

The filesystem collaborator is modelled by the root predicate
`is_directory(dirname)` and the list of child entries, each carrying the
`is_directory` answer for the child, whether `new_random_access_file`
succeeds, whether `read` succeeds, and the raw bytes (one model symbol per
byte; `sg_string_len = filesize/sizeof(ST)` with `sizeof(ST) = 1`). -/

structure DirEntry where
  isDir : Bool
  openOk : Bool
  readOk : Bool
  contents : List Nat
deriving DecidableEq

inductive DirErr where
  | notDirectory
  | noFiles
  | readFailed
deriving DecidableEq

/-- The child loop of `load_from_directory`: a child with
`is_directory(fname)` TRUE is opened and read into one sequence (a failed
open is silently skipped; a failed read throws `error("failed to read
file")`), while a child with `is_directory(fname)` FALSE is skipped with a
debug message saying it is being skipped "as it's a directory". -/
def readChildren : List DirEntry → Except DirErr (List (List Nat))
  | [] => .ok []
  | e :: es =>
    if e.isDir then
      if e.openOk then
        if e.readOk then
          match readChildren es with
          | .ok rest => .ok (e.contents :: rest)
          | .error err => .error err
        else .error .readFailed
      else readChildren es
    else readChildren es

/-- `CStringFeatures::load_from_directory`:
`require(!fs_registry->is_directory(dirname), "... is not a directory!")`
aborts precisely when the supplied path IS a directory; an empty child list
aborts; otherwise the children are scanned as above and the call succeeds
iff at least one child was loaded (the final `set_features` alphabet
validation, an external concern, is abstracted as accepting). -/
def load_from_directory (rootIsDir : Bool) (children : List DirEntry) :
    Except DirErr (Bool × List (List Nat)) :=
  if rootIsDir then .error .notDirectory
  else if children.length = 0 then .error .noFiles
  else
    match readChildren children with
    | .error e => .error e
    | .ok strings =>
      if 0 < strings.length then .ok (true, strings)
      else .ok (false, [])

/-- C9: evidence that the directory loader contradicts the claim (the spec
flags this as a known legacy defect).  (1) On a path that IS a directory
holding one readable regular file, the call aborts at
`require(!is_directory(dirname))` instead of loading the file.  (2) With
the root require passed, a regular-file child is skipped — not read — so
nothing is loaded and the call fails.  (3) A child for which
`is_directory` is TRUE is the one that gets read. -/
theorem load_from_directory_bug :
    load_from_directory true [⟨false, true, true, [1, 2, 3]⟩] = .error .notDirectory ∧
    load_from_directory false [⟨false, true, true, [1, 2, 3]⟩] = .ok (false, []) ∧
    load_from_directory false [⟨true, true, true, [1, 2, 3]⟩] = .ok (true, [[1, 2, 3]]) :=
  ⟨rfl, rfl, rfl⟩

/-! ## FormatLoader: `load_ascii_file` (remap_to_bin = false)

The file is a byte list.  Pass 1 streams blocks of
`min(1024*1024, fsize)` bytes counting newline-terminated records and the
largest record span; pass 2 re-reads with the pass-1 `required_blocksize`,
splitting records with an overflow carry buffer.  `SGVector` writes beyond
the allocated `len` (the C++ writes `len + overflow_len` entries into a
buffer of `len`) fall outside the `vlen`-visible extent and are dropped by
`List.set`; likewise `features[lines]` assignments beyond the pass-1
count.  The block loops are driven by fuel `file.length + 1`, which is
ample for every terminating execution. -/

/-- `for j: vec[start+j] = src[j]`, out-of-range writes dropped. -/
def writeAt : List Nat → Nat → List Nat → List Nat
  | vec, _, [] => vec
  | vec, i, b :: bs => writeAt (vec.set i b) (i + 1) bs

structure Pass1State where
  block_offs : Nat
  old_block_offs : Nat
  num_vectors : Nat
  required_blocksize : Nat
deriving DecidableEq

/-- The `for i<sz` body of pass 1: count a record at every newline, and at
the final byte of a short (last) block; track the largest record span. -/
def pass1Chunk (blocksize sz : Nat) : List Nat → Nat → Pass1State → Pass1State
  | [], _, st => st
  | b :: bs, i, st =>
    let st1 : Pass1State := { st with block_offs := st.block_offs + 1 }
    let st2 :=
      if b = 10 ∨ (i = sz - 1 ∧ sz < blocksize) then
        { st1 with
          num_vectors := st1.num_vectors + 1,
          required_blocksize := max st1.required_blocksize (st1.block_offs - st1.old_block_offs),
          old_block_offs := st1.block_offs }
      else st1
    pass1Chunk blocksize sz bs (i + 1) st2

/-- `sz=blocksize; while (sz==blocksize) { sz=fread(blocksize); ... }`. -/
def pass1Loop (blocksize : Nat) : Nat → List Nat → Pass1State → Pass1State
  | 0, _, st => st
  | fuel + 1, rem, st =>
    let sz := min blocksize rem.length
    let st1 := pass1Chunk blocksize sz (rem.take sz) 0 st
    if sz = blocksize then pass1Loop blocksize fuel (rem.drop sz) st1
    else st1

/-- Pass 1 of `load_ascii_file`: `(num_vectors, required_blocksize)`. -/
def load_ascii_pass1 (file : List Nat) : Nat × Nat :=
  let blocksize := min 1048576 file.length
  let st := pass1Loop blocksize (file.length + 1) file ⟨0, 0, 0, 0⟩
  (st.num_vectors, st.required_blocksize)

structure Pass2State where
  overflow : List Nat
  lines : Nat
  features : List (List Nat)
  hist : List Nat
deriving DecidableEq

/-- The `for i<sz` body of pass 2 (`remap_to_bin = false`): at each record
end, allocate `SGVector(len)` with `len = i - old_sz` (the in-block span
only), copy the carried overflow to positions `0..overflow_len-1` and the
block segment to positions `overflow_len..overflow_len+len-1`, add the raw
block segment and then the stored vector (`vlen = len` entries) to the one
histogram, clear the overflow, and advance.  Returns the final state and
`old_sz` for the after-loop overflow copy. -/
def pass2Chunk (blocksize sz : Nat) (chunk : List Nat) :
    Nat → Nat → Nat → Pass2State → Pass2State × Nat
  | 0, _, old_sz, st => (st, old_sz)
  | c + 1, i, old_sz, st =>
    if chunk.getD i 0 = 10 ∨ (i = sz - 1 ∧ sz < blocksize) then
      let len := i - old_sz
      let seg := (chunk.take i).drop old_sz
      let vec := writeAt (writeAt (List.replicate len 0) 0 st.overflow) st.overflow.length seg
      pass2Chunk blocksize sz chunk c (i + 1) (i + 1)
        { overflow := [],
          lines := st.lines + 1,
          features := st.features.set st.lines vec,
          hist := st.hist ++ seg ++ vec }
    else
      pass2Chunk blocksize sz chunk c (i + 1) old_sz st

/-- The pass-2 block loop, with the
`for (i=old_sz; i<sz; i++) overflow[i-old_sz]=dummy[i]` carry after each
block. -/
def pass2Loop (blocksize : Nat) : Nat → List Nat → Pass2State → Pass2State
  | 0, _, st => st
  | fuel + 1, rem, st =>
    let sz := min blocksize rem.length
    let chunk := rem.take sz
    let res := pass2Chunk blocksize sz chunk sz 0 0 st
    let st2 := { res.1 with overflow := chunk.drop res.2 }
    if sz = blocksize then pass2Loop blocksize fuel (rem.drop sz) st2
    else st2

/-- `CStringFeatures::load_ascii_file` with `remap_to_bin = false`: the
resulting store contents and the accumulated (pre-remap) histogram bytes. -/
def load_ascii_file (file : List Nat) : List (List Nat) × List Nat :=
  let p1 := load_ascii_pass1 file
  let st := pass2Loop p1.2 (file.length + 1) file ⟨[], 0, List.replicate p1.1 [], []⟩
  (st.features, st.hist)

/-- C5 counterexample: on the file whose newline-terminated lines are
`"AAA"`, `"CG"`, `"TTTT"` (bytes `65 65 65 10 67 71 10 84 84 84 84 10`),
the loader does NOT produce sequences of lengths 3, 2, 4 with histogram
counts `A:4, C:1, G:1, T:4` as the claim states. -/
theorem load_ascii_file_counterexample :
    ¬ ((load_ascii_file [65, 65, 65, 10, 67, 71, 10, 84, 84, 84, 84, 10]).1.map List.length
        = [3, 2, 4] ∧
      (load_ascii_file [65, 65, 65, 10, 67, 71, 10, 84, 84, 84, 84, 10]).2.count 65 = 4 ∧
      (load_ascii_file [65, 65, 65, 10, 67, 71, 10, 84, 84, 84, 84, 10]).2.count 67 = 1 ∧
      (load_ascii_file [65, 65, 65, 10, 67, 71, 10, 84, 84, 84, 84, 10]).2.count 71 = 1 ∧
      (load_ascii_file [65, 65, 65, 10, 67, 71, 10, 84, 84, 84, 84, 10]).2.count 84 = 4) := by
  decide

/-- C5 (amended): on that file the loader yields three sequences, of
lengths 3, 1, 1 with contents `"AAA"`, `"C"`, `"T"` — pass 2 sizes each
record buffer by only the in-block span `i - old_sz`, truncating any line
that crosses a block boundary of the pass-1 `required_blocksize` (here 5)
— and the accumulated pre-remap histogram counts are
`A:6, C:1, G:1, T:2`: every in-block line is histogrammed twice (raw block
segment plus stored vector) and carried-over bytes are dropped. -/
theorem load_ascii_file_actual :
    (load_ascii_file [65, 65, 65, 10, 67, 71, 10, 84, 84, 84, 84, 10]).1
      = [[65, 65, 65], [67], [84]] ∧
    (load_ascii_file [65, 65, 65, 10, 67, 71, 10, 84, 84, 84, 84, 10]).2.count 65 = 6 ∧
    (load_ascii_file [65, 65, 65, 10, 67, 71, 10, 84, 84, 84, 84, 10]).2.count 67 = 1 ∧
    (load_ascii_file [65, 65, 65, 10, 67, 71, 10, 84, 84, 84, 84, 10]).2.count 71 = 1 ∧
    (load_ascii_file [65, 65, 65, 10, 67, 71, 10, 84, 84, 84, 84, 10]).2.count 84 = 2 := by
  decide

end StringFeatures
